import Mathlib

/-!
Shallow embedding of `simulate_chunks_in_vaults.go` (iancoleman's SAFE chunk
responsibility simulation) and proofs about the claims of its specification.

Modelling conventions:
* Go `uint64` values are `Nat` together with the invariant `< 2^64`; every
  operation that can wrap in Go carries an explicit `% 2^64` (or an explicit
  `+ 2^64` before a subtraction).
* `math/rand`'s stream of `rand.Uint64()` draws is an explicit `List Nat`
  argument, consumed from the front; a function returns `none` when the
  source would block forever on an exhausted stream, or when the source
  `panic`s (unrecognized strategy string, division by zero).
* Go's `math/big` integers are unbounded `Int`/`Nat`, which is exact:
  `big.Int.Div` is Euclidean division, which is `Int`'s `/` here, and
  `big.Int.Sqrt` is the floor square root, modelled by the structurally
  recursive `isqrt` below.  `big.Int.Int64`/`Uint64` return the low 64 bits
  (two's complement for `Int64`) when the value is out of range, which
  `int64ofNat` models.
* `sort.Sort` is an arbitrary (unstable) comparison sort; it is modelled by
  `List.insertionSort`, and every theorem stated about a sorted result is
  insensitive to the order of elements with equal keys.
-/

set_option maxRecDepth 100000

namespace SafeChunkSim

/-- Model of `getSpacing`: under `"linear"` it is the wrapping `uint64`
subtraction `bigName - smallName`, under `"xordistance"` the bitwise XOR;
any other spacing strategy panics (`none`). -/
def getSpacing (strategy : String) (bigName smallName : Nat) : Option Nat :=
  if strategy = "linear" then some ((bigName + 2^64 - smallName) % 2^64)
  else if strategy = "xordistance" then some (Nat.xor bigName smallName)
  else none

/-- Model of the `Node` struct.  `Stored` is `float64` in the source; for the
`"chunks"` storage units (the only mode any claim quantifies over) every
increment is exactly `+1` and the accumulated count stays far below `2^53`,
so the float arithmetic is exact and a `Nat` counter is a faithful model. -/
structure Node where
  name : Nat
  currentChunk : Nat
  stored : Nat
deriving DecidableEq, Repr

/-- Sort key of the `ByXorDistance` sorter: `Name ^ CurrentChunk`. -/
def xorKey (n : Node) : Nat := Nat.xor n.name n.currentChunk

/-- Comparison relation of the `ByXorDistance` sorter (non-strict closure of
its `Less`). -/
def xorLe (a b : Node) : Prop := xorKey a ≤ xorKey b

instance : DecidableRel xorLe := fun a b => inferInstanceAs (Decidable (xorKey a ≤ xorKey b))

instance : IsTotal Node xorLe := ⟨fun a b => Nat.le_total (xorKey a) (xorKey b)⟩

instance : IsTrans Node xorLe := ⟨fun _ _ _ => Nat.le_trans⟩

/-- `sort.Sort(ByXorDistance(nodes))` from `main`'s chunk-placement loop:
the population is sorted by `Name ^ CurrentChunk`, unconditionally —
independently of the configured `spacingStrategy`. -/
def sortByXorDistance (nodes : List Node) : List Node :=
  List.insertionSort xorLe nodes

/-- The per-chunk loop `for j := range nodes { nodes[j].CurrentChunk = chunkName }`. -/
def setChunk (c : Nat) (nodes : List Node) : List Node :=
  nodes.map fun n => { n with currentChunk := c }

/-- `nodes[j].Stored += 1` (storage units `"chunks"`). -/
def incrStored (n : Node) : Node := { n with stored := n.stored + 1 }

/-- The attribution loop `for j := 0; j < groupSize; j++ { nodes[j].Stored += 1 }`. -/
def addChunkToGroup (g : Nat) (nodes : List Node) : List Node :=
  (nodes.take g).map incrStored ++ nodes.drop g

/-- One iteration of `main`'s chunk-placement loop for chunk id `c`
(storage units `"chunks"`): stamp `CurrentChunk`, sort by XOR distance,
increment the first `groupSize` nodes. -/
def placeChunk (g c : Nat) (nodes : List Node) : List Node :=
  addChunkToGroup g (sortByXorDistance (setChunk c nodes))

/-- The whole placement phase over a list of chunk identifiers. -/
def placeChunks (g : Nat) (chunks : List Nat) (nodes : List Node) : List Node :=
  chunks.foldl (fun ns c => placeChunk g c ns) nodes

/-- Distance of a name from a chunk id under the specification's words
"linear difference" (the magnitude of the difference); used only to state
what the spec claims the sort order would be under the `"linear"` metric. -/
def linDiff (a b : Nat) : Nat := max a b - min a b

/-- Interior loop of `getAllSpacings`: spacings between consecutive names,
threading the previous name. -/
def pairSpacings (strategy : String) : Nat → List Node → Option (List Nat)
  | _, [] => some []
  | prev, n :: rest =>
    (getSpacing strategy n.name prev).bind fun s =>
      (pairSpacings strategy n.name rest).bind fun more =>
        some (s :: more)

/-- Model of `getAllSpacings`: boundary gap from 0 to the first name, the
consecutive pairwise gaps, then the boundary gap from the last name to
`2^64 - 1`.  The source indexes `nodes[0]`, so an empty population panics. -/
def getAllSpacings (strategy : String) (nodes : List Node) : Option (List Nat) :=
  match nodes with
  | [] => none
  | n0 :: rest =>
    (getSpacing strategy n0.name 0).bind fun first =>
      (pairSpacings strategy n0.name rest).bind fun mids =>
        (getSpacing strategy (2^64 - 1) (((n0 :: rest).map Node.name).getLastD 0)).bind fun lastSp =>
          some (first :: (mids ++ [lastSp]))

/-- Model of `average`: exact `big.Int` summation, Euclidean division by the
length (division by zero panics on an empty list), then `big.Int.Uint64`,
which returns the low 64 bits (a no-op here since a mean of `uint64` values
fits in `uint64`). -/
def average (numbers : List Nat) : Option Nat :=
  if numbers.length = 0 then none
  else some ((numbers.foldl (· + ·) 0 / numbers.length) % 2^64)

/-- Model of `big.Int.Int64` applied to a nonnegative value: the low 64 bits
reinterpreted as a two's-complement signed integer. -/
def int64ofNat (n : Nat) : Int :=
  if n % 2^64 < 2^63 then ((n % 2^64 : Nat) : Int)
  else ((n % 2^64 : Nat) : Int) - 2^64

/-- Bitwise floor-square-root scaffold: descends from bit `k-1` to bit 0,
setting each bit of the candidate root when the square still fits. -/
def isqrtDown (n : Nat) : Nat → Nat → Nat
  | r, 0 => r
  | r, k + 1 => isqrtDown n (if (r + 2^k) * (r + 2^k) ≤ n then r + 2^k else r) k

/-- Model of `big.Int.Sqrt` (floor square root), exact for arguments below
`2^512` — far above anything `standardDeviation` can feed it, since the
sample variance of `uint64` values is at most `2 * (2^64 - 1)^2`. -/
def isqrt (n : Nat) : Nat := isqrtDown n 0 256

/-- Model of `standardDeviation`: floor mean, exact `big.Int` sum of squared
signed differences, Euclidean division by `count - 1` (panics when the list
has fewer than 2 elements), floor square root, then the `Int64` conversion. -/
def standardDeviation (numbers : List Nat) : Option Int :=
  (average numbers).bind fun avg =>
    let totalDiffs : Int :=
      numbers.foldl (fun (acc : Int) (number : Nat) =>
        acc + ((number : Int) - (avg : Int)) * ((number : Int) - (avg : Int))) 0
    if numbers.length ≤ 1 then none
    else some (int64ofNat (isqrt ((totalDiffs / ((numbers.length : Int) - 1)).toNat)))

/-- The specification's formula for the sample standard deviation: the floor
of the integer square root of the sum of squared differences from the floor
average, divided by `count - 1`.  Written independently of the embedding of
the source (`List.map`/`List.sum`, `^2`, `Nat.sqrt`). -/
def sdevSpec (l : List Nat) : Nat :=
  Nat.sqrt (((l.map fun x : Nat => ((x : Int) - ((l.sum / l.length : Nat) : Int))^2).sum
    / ((l.length : Int) - 1)).toNat)

/-- State threaded through `nameForBestFit`'s gap search: the zero values of
`var maxSpacing, minName, maxName uint64`. -/
structure GapState where
  maxSpacing : Nat
  minName : Nat
  maxName : Nat
deriving DecidableEq, Repr

/-- The `for i := range names` loop of `nameForBestFit`: scan the sorted
names, remembering the widest gap seen (strictly wider than the current
maximum), with the previous name starting at 0. -/
def scanGaps (strategy : String) : Nat → GapState → List Nat → Option GapState
  | _, st, [] => some st
  | prev, st, n :: rest =>
    (getSpacing strategy n prev).bind fun sp =>
      scanGaps strategy n (if st.maxSpacing < sp then ⟨sp, prev, n⟩ else st) rest

/-- The gap selection and narrowing of `nameForBestFit`: widest gap over the
sorted names (boundary gaps against 0 and `2^64 - 1` included; the whole
namespace when the list is empty), then both bounds pulled a third of the
gap width inwards, with `uint64` wrapping as in the source. -/
def bestFitBounds (strategy : String) (names : List Nat) : Option (Nat × Nat) :=
  (if names = [] then some (⟨2^64 - 1, 0, 2^64 - 1⟩ : GapState)
   else
     (scanGaps strategy 0 ⟨0, 0, 0⟩ (List.insertionSort (· ≤ ·) names)).bind fun st =>
       (getSpacing strategy (2^64 - 1) ((List.insertionSort (· ≤ ·) names).getLastD 0)).bind fun lastSp =>
         some (if st.maxSpacing < lastSp
           then (⟨lastSp, (List.insertionSort (· ≤ ·) names).getLastD 0, 2^64 - 1⟩ : GapState)
           else st)).bind fun st =>
    some ((st.minName + st.maxSpacing / 3) % 2^64,
          (st.maxName + 2^64 - st.maxSpacing / 3) % 2^64)

/-- The literal resampling loop `for name <= minName && name >= maxName
{ name = rand.Uint64() }` of `nameForBestFit` and `nameForQuietestHalf`,
consuming draws from the stream. -/
def rejectLoop (minN maxN : Nat) : Nat → List Nat → Option Nat
  | name, [] => if name ≤ minN ∧ maxN ≤ name then none else some name
  | name, r :: rs => if name ≤ minN ∧ maxN ≤ name then rejectLoop minN maxN r rs else some name

/-- Model of `nameForBestFit`: draw a first candidate, compute the narrowed
widest gap, then run the (broken) resampling loop. -/
def nameForBestFit (strategy : String) (names rands : List Nat) : Option Nat :=
  match rands with
  | [] => none
  | name :: rest =>
    (bestFitBounds strategy names).bind fun b => rejectLoop b.1 b.2 name rest

/-- `var halfway uint64 = math.MaxUint64 / 2`, i.e. `2^63 - 1`. -/
def halfway : Nat := (2^64 - 1) / 2

/-- The bounds computed by `nameForQuietestHalf`: count the names in each
half (`name < halfway` is the first half), and restrict to the second half
only when the first half has strictly more members. -/
def quietBounds (names : List Nat) : Nat × Nat :=
  let firstHalfVaults := (names.filter fun n => decide (n < halfway)).length
  let secondHalfVaults := (names.filter fun n => decide (¬ n < halfway)).length
  if secondHalfVaults < firstHalfVaults then (halfway, 2^64 - 1) else (0, halfway)

/-- Model of `nameForQuietestHalf`: compute the half bounds, draw a first
candidate, then run the (broken) resampling loop. -/
def nameForQuietestHalf (names rands : List Nat) : Option Nat :=
  match rands with
  | [] => none
  | name :: rest => rejectLoop (quietBounds names).1 (quietBounds names).2 name rest

/-- The subsection table of `nameForEmptySubsection` at a given search depth:
`2^depth` inclusive ranges `[i*(size+1), i*(size+1)+size]` with
`size = MaxUint64 >> depth` (a Go shift by 64 or more yields 0, and the
`uint64` arithmetic wraps). -/
def subsectionsAtDepth (d : Nat) : List (Nat × Nat) :=
  let totalSubsections := if d ≤ 63 then 2^d else 0
  let subsectionSize := if d ≤ 63 then (2^64 - 1) / 2^d else 0
  (List.range totalSubsections).map fun i =>
    if totalSubsections = 1 then (0, subsectionSize)
    else ((i * (subsectionSize + 1)) % 2^64,
          (i * (subsectionSize + 1) + subsectionSize) % 2^64)

/-- The emptiness test of `nameForEmptySubsection`: no name falls within the
inclusive bounds of the subsection. -/
def emptyAt (names : List Nat) (sub : Nat × Nat) : Bool :=
  names.all fun name => decide (¬ (sub.1 ≤ name ∧ name ≤ sub.2))

/-- The depth-increasing search loop of `nameForEmptySubsection`, with fuel
bounding the (in the source unbounded) number of rounds; 64 rounds are far
more than any population of distinct names can survive. -/
def findEmptySubsections (names : List Nat) : Nat → Nat → Option (List (Nat × Nat))
  | _, 0 => none
  | d, fuel + 1 =>
    let empties := (subsectionsAtDepth d).filter (emptyAt names)
    if empties.isEmpty then findEmptySubsections names (d + 1) fuel else some empties

/-- The final rejection loop of `nameForEmptySubsection`: return the first
drawn value lying in one of the empty subsections. -/
def pickName (subs : List (Nat × Nat)) : List Nat → Option Nat
  | [] => none
  | r :: rs => if subs.any fun s => decide (s.1 ≤ r ∧ r ≤ s.2) then some r else pickName subs rs

/-- Model of `nameForEmptySubsection`. -/
def nameForEmptySubsection (names rands : List Nat) : Option Nat :=
  (findEmptySubsections names 0 64).bind fun subs => pickName subs rands

/-- The 14-identifier fixture of `runTests` (the `0x4` and `0xB` sixteenths
of the namespace hold no identifier). -/
def fixtureNames : List Nat :=
  [0x0000000000003000, 0x1000000000003000, 0x2000000000003000, 0x3000000000003000,
   0x5000000000003000, 0x6000000000003000, 0x7000000000003000, 0x8000000000003000,
   0x9000000000003000, 0xA000000000003000, 0xC000000000003000, 0xD000000000003000,
   0xE000000000003000, 0xF000000000003000]

/-- Round-to-nearest with ties-to-even of the rational `a / b`, as an
integer; this is how IEEE-754 rounds an exact quotient onto a grid. -/
def rneDiv (a b : Nat) : Nat :=
  let q := a / b
  let r := a % b
  if 2 * r < b then q
  else if b < 2 * r then q + 1
  else if q % 2 = 0 then q else q + 1

/-- Smallest `k` with `n ≤ i * 2^k`, by fuelled search (any fuel of at least
`n` suffices for `i ≥ 1`, since `n ≤ 2^n`). -/
def minK : Nat → Nat → Nat → Nat
  | _, _, 0 => 0
  | i, n, fuel + 1 => if n ≤ i then 0 else minK (2 * i) n fuel + 1

/-- Model of the `"uniform"` branch of `addNewNode`:
`uint64(float64(math.MaxUint64) * (float64(current) / float64(target)))`.
`float64(math.MaxUint64)` rounds up to exactly `2^64`; `float64` of a count
below `2^53` is exact; the division rounds the true quotient to the nearest
binary64 (53-bit significand, ties to even), which for `1 ≤ current <
target` is `m / 2^(52+k)` with `k` minimal such that `target ≤ current *
2^k` and `m = rneDiv (current * 2^(52+k)) target`; multiplying by `2^64` is
exact (a power of two); the `uint64` conversion truncates.  The model is
faithful for `current < target`, the only case `addNewNode` reaches. -/
def uniformName (current target : Nat) : Nat :=
  if current = 0 then 0
  else (2^64 * rneDiv (current * 2^(52 + minK current target target)) target)
    / 2^(52 + minK current target target)

/-! ## Helper lemmas -/

/-- The final rejection loop returns the first draw lying in one of the
subsections (or fails): any returned value is inside some subsection. -/
theorem pickName_inAny (subs : List (Nat × Nat)) (rands : List Nat) (v : Nat)
    (h : pickName subs rands = some v) : ∃ s ∈ subs, s.1 ≤ v ∧ v ≤ s.2 := by
  induction rands with
  | nil => simp [pickName] at h
  | cons r rs ih =>
    by_cases hc : (subs.any fun s => decide (s.1 ≤ r ∧ r ≤ s.2)) = true
    · rw [pickName, if_pos hc] at h
      obtain rfl : r = v := by simpa using h
      simpa using hc
    · rw [pickName, if_neg hc] at h
      exact ih h

/-- Unfold `getSpacing` at the `"linear"` strategy. -/
theorem getSpacing_linear (b s : Nat) :
    getSpacing "linear" b s = some ((b + 2^64 - s) % 2^64) := rfl

/-- For in-range operands in the right order the linear spacing is the exact
difference (no wraparound). -/
theorem getSpacing_linear_of_le {b s : Nat} (hs : s ≤ b) (hb : b < 2^64) :
    getSpacing "linear" b s = some (b - s) := by
  rw [getSpacing_linear]
  congr 1
  have h1 : b + 2^64 - s = (b - s) + 2^64 := by omega
  rw [h1, Nat.add_mod_right, Nat.mod_eq_of_lt (by omega)]

/-- The defaulted last element of a non-empty list is a member. -/
theorem getLastD_mem : ∀ (l : List Nat) (d : Nat), l ≠ [] → l.getLastD d ∈ l
  | [x], _, _ => by simp
  | x :: y :: rest, _, _ => by
    rw [List.getLastD_cons]
    exact List.mem_cons_of_mem x (getLastD_mem (y :: rest) x (by simp))

/-- Invariant of the gap-scanning loop under the `"linear"` metric: the
selected gap's bounds satisfy `minName + maxSpacing = maxName < 2^64`, and
the selected width is zero only if every name seen so far (hence the last
one) is zero. -/
theorem scanGaps_linear (l : List Nat) : ∀ (prev : Nat) (st : GapState),
    List.Sorted (· ≤ ·) (prev :: l) → (∀ x ∈ l, x < 2^64) → prev < 2^64 →
    st.maxName < 2^64 → st.minName + st.maxSpacing = st.maxName →
    (st.maxSpacing = 0 → prev = 0) →
    ∃ st', scanGaps "linear" prev st l = some st' ∧
      st'.maxName < 2^64 ∧ st'.minName + st'.maxSpacing = st'.maxName ∧
      (st'.maxSpacing = 0 → l.getLastD prev = 0) := by
  induction l with
  | nil =>
    intro prev st _ _ _ h1 h2 h3
    exact ⟨st, rfl, h1, h2, fun h => h3 h⟩
  | cons n rest ih =>
    intro prev st hsort hmem hp h1 h2 h3
    have hpn : prev ≤ n := (List.sorted_cons.mp hsort).1 n (by simp)
    have hn : n < 2^64 := hmem n (by simp)
    have hsp : getSpacing "linear" n prev = some (n - prev) := getSpacing_linear_of_le hpn hn
    have htail : List.Sorted (· ≤ ·) (n :: rest) := (List.sorted_cons.mp hsort).2
    have hmem' : ∀ x ∈ rest, x < 2^64 := fun x hx => hmem x (by simp [hx])
    rw [scanGaps, hsp, Option.some_bind, List.getLastD_cons]
    by_cases hupd : st.maxSpacing < n - prev
    · rw [if_pos hupd]
      exact ih n ⟨n - prev, prev, n⟩ htail hmem' hn hn (by simp; omega) (fun h0 => by simp at h0; omega)
    · rw [if_neg hupd]
      exact ih n st htail hmem' hn h1 h2 (fun h0 => by have := h3 h0; omega)

/-- Under the `"linear"` metric `nameForBestFit`'s narrowed bounds always
exist and satisfy `minName < maxName`: the widest gap has positive width
`d` with `minName + d = maxName`, and discarding `d/3` at each end keeps
the bounds strictly ordered. -/
theorem bestFitBounds_linear_lt (names : List Nat) (h64 : ∀ x ∈ names, x < 2^64) :
    ∃ mn mx, bestFitBounds "linear" names = some (mn, mx) ∧ mn < mx := by
  by_cases hne : names = []
  · subst hne
    exact ⟨6148914691236517205, 12297829382473034410, by decide, by decide⟩
  · have hsorted : List.Sorted (· ≤ ·) (List.insertionSort (· ≤ ·) names) :=
      List.sorted_insertionSort (· ≤ ·) names
    have hperm := List.perm_insertionSort (· ≤ ·) names
    have hmem : ∀ x ∈ List.insertionSort (· ≤ ·) names, x < 2^64 :=
      fun x hx => h64 x (hperm.subset hx)
    have hsort0 : List.Sorted (· ≤ ·) (0 :: List.insertionSort (· ≤ ·) names) :=
      List.sorted_cons.mpr ⟨fun b _ => Nat.zero_le b, hsorted⟩
    obtain ⟨st, hscan, hst1, hst2, hst3⟩ :=
      scanGaps_linear (List.insertionSort (· ≤ ·) names) 0 ⟨0, 0, 0⟩ hsort0 hmem
        (by decide) (by decide) rfl (fun _ => rfl)
    have hsne : List.insertionSort (· ≤ ·) names ≠ [] := by
      intro h
      exact hne (List.eq_nil_of_length_eq_zero (by rw [← hperm.length_eq, h]; rfl))
    have hlast : (List.insertionSort (· ≤ ·) names).getLastD 0 < 2^64 :=
      hmem _ (getLastD_mem _ 0 hsne)
    have hlastSp : getSpacing "linear" (2^64 - 1) ((List.insertionSort (· ≤ ·) names).getLastD 0) =
        some (2^64 - 1 - (List.insertionSort (· ≤ ·) names).getLastD 0) :=
      getSpacing_linear_of_le (by omega) (by omega)
    unfold bestFitBounds
    rw [if_neg hne, hscan, Option.some_bind, hlastSp, Option.some_bind, Option.some_bind]
    by_cases hupd : st.maxSpacing < 2^64 - 1 - (List.insertionSort (· ≤ ·) names).getLastD 0
    · rw [if_pos hupd]
      refine ⟨_, _, rfl, ?_⟩
      have hd1 : 1 ≤ 2^64 - 1 - (List.insertionSort (· ≤ ·) names).getLastD 0 := by omega
      have hmn : (List.insertionSort (· ≤ ·) names).getLastD 0 +
          (2^64 - 1 - (List.insertionSort (· ≤ ·) names).getLastD 0) / 3 < 2^64 := by omega
      rw [Nat.mod_eq_of_lt hmn]
      have hx : 2^64 - 1 + 2^64 - (2^64 - 1 - (List.insertionSort (· ≤ ·) names).getLastD 0) / 3 =
          (2^64 - 1 - (2^64 - 1 - (List.insertionSort (· ≤ ·) names).getLastD 0) / 3) + 2^64 := by
        omega
      rw [hx, Nat.add_mod_right, Nat.mod_eq_of_lt (by omega)]
      omega
    · rw [if_neg hupd]
      refine ⟨_, _, rfl, ?_⟩
      have hd1 : 1 ≤ st.maxSpacing := by
        rcases Nat.eq_zero_or_pos st.maxSpacing with h0 | h0
        · have hl0 := hst3 h0
          omega
        · omega
      have hmn : st.minName + st.maxSpacing / 3 < 2^64 := by omega
      rw [Nat.mod_eq_of_lt hmn]
      have hx : st.maxName + 2^64 - st.maxSpacing / 3 =
          (st.maxName - st.maxSpacing / 3) + 2^64 := by omega
      rw [hx, Nat.add_mod_right, Nat.mod_eq_of_lt (by omega)]
      omega

/-- The literal resampling loop exits immediately whenever the bounds are
strictly ordered, because its condition `name ≤ minName ∧ maxName ≤ name`
is then unsatisfiable. -/
theorem rejectLoop_of_lt {mn mx : Nat} (h : mn < mx) (name : Nat) (rs : List Nat) :
    rejectLoop mn mx name rs = some name := by
  have hc : ¬ (name ≤ mn ∧ mx ≤ name) := by omega
  cases rs with
  | nil => exact if_neg hc
  | cons x xs => exact if_neg hc

/-- Shared behavioural fact: `nameForQuietestHalf` returns the first draw. -/
theorem quietestHalf_eq_head (names rands : List Nat) :
    nameForQuietestHalf names rands = rands.head? := by
  match rands with
  | [] => rfl
  | r :: rs =>
    have hq : quietBounds names = (halfway, 2^64 - 1) ∨ quietBounds names = (0, halfway) := by
      simp only [quietBounds]
      split
      · exact Or.inl rfl
      · exact Or.inr rfl
    have hlt : (quietBounds names).1 < (quietBounds names).2 := by
      rcases hq with h | h <;> rw [h] <;> decide
    exact rejectLoop_of_lt hlt r rs

/-- Shared behavioural fact: under the `"linear"` metric `nameForBestFit`
returns the first draw. -/
theorem bestFit_linear_eq_head (names rands : List Nat) (h64 : ∀ x ∈ names, x < 2^64) :
    nameForBestFit "linear" names rands = rands.head? := by
  match rands with
  | [] => rfl
  | r :: rs =>
    obtain ⟨mn, mx, hb, hlt⟩ := bestFitBounds_linear_lt names h64
    show (bestFitBounds "linear" names).bind _ = some r
    rw [hb, Option.some_bind]
    exact rejectLoop_of_lt hlt r rs

/-- Stamping the current chunk does not change any stored counter. -/
theorem map_stored_setChunk (c : Nat) (ns : List Node) :
    (setChunk c ns).map Node.stored = ns.map Node.stored := by
  induction ns with
  | nil => rfl
  | cons n l ih => simp [setChunk] at ih ⊢

/-- Sorting permutes the population, so the stored counters' sum is kept. -/
theorem sum_stored_sort (ns : List Node) :
    ((sortByXorDistance ns).map Node.stored).sum = (ns.map Node.stored).sum :=
  ((List.perm_insertionSort xorLe ns).map Node.stored).sum_eq

/-- Incrementing each element's counter adds the list's length to the sum. -/
theorem sum_map_incr (l : List Node) :
    (l.map fun n => n.stored + 1).sum = (l.map Node.stored).sum + l.length := by
  induction l with
  | nil => rfl
  | cons n t ih => simp only [List.map_cons, List.sum_cons, List.length_cons, ih]; omega

/-- Attributing one chunk to the first `g` of `ns` adds exactly `g` to the
total stored count when `g ≤ ns.length`. -/
theorem sum_stored_addChunkToGroup (g : Nat) (ns : List Node) (hg : g ≤ ns.length) :
    ((addChunkToGroup g ns).map Node.stored).sum = (ns.map Node.stored).sum + g := by
  unfold addChunkToGroup
  rw [List.map_append, List.sum_append, List.map_map]
  have hcomp : Node.stored ∘ incrStored = fun n => n.stored + 1 := rfl
  rw [hcomp, sum_map_incr]
  have hsplit : (ns.map Node.stored).sum =
      ((ns.take g).map Node.stored).sum + ((ns.drop g).map Node.stored).sum := by
    conv_lhs => rw [← List.take_append_drop g ns]
    rw [List.map_append, List.sum_append]
  have hlen : (ns.take g).length = g := by
    simp [List.length_take]; omega
  omega

/-- One chunk placement preserves the population size. -/
theorem length_placeChunk (g c : Nat) (ns : List Node) :
    (placeChunk g c ns).length = ns.length := by
  unfold placeChunk addChunkToGroup sortByXorDistance setChunk
  rw [List.length_append, List.length_map, List.length_take, List.length_drop,
    List.length_insertionSort, List.length_map]
  omega

/-- One chunk placement adds exactly `g` to the total stored count. -/
theorem sum_stored_placeChunk (g c : Nat) (ns : List Node) (hg : g ≤ ns.length) :
    ((placeChunk g c ns).map Node.stored).sum = (ns.map Node.stored).sum + g := by
  unfold placeChunk
  rw [sum_stored_addChunkToGroup g _ (by
    unfold sortByXorDistance setChunk
    rw [List.length_insertionSort, List.length_map]
    exact hg)]
  rw [sum_stored_sort, map_stored_setChunk]

/-- Placing a list of chunks adds `chunks.length * g` to the total. -/
theorem placeChunks_sum (g : Nat) (chunks : List Nat) : ∀ ns : List Node, g ≤ ns.length →
    ((placeChunks g chunks ns).map Node.stored).sum =
      (ns.map Node.stored).sum + chunks.length * g := by
  induction chunks with
  | nil => intro ns _; simp [placeChunks]
  | cons c cs ih =>
    intro ns hg
    have hstep : placeChunks g (c :: cs) ns = placeChunks g cs (placeChunk g c ns) := rfl
    rw [hstep, ih (placeChunk g c ns) (by rw [length_placeChunk]; exact hg),
      sum_stored_placeChunk g c ns hg, List.length_cons, Nat.succ_mul]
    omega

/-- Zipping a difference over a list against its own shift, with an element
appended on the left, splits off a final difference against the last
element. -/
theorem zipWith_sub_append_last : ∀ (A : List Nat) (c x : Nat),
    List.zipWith (fun b s => b - s) (A ++ [x]) (c :: A) =
      List.zipWith (fun b s => b - s) A (c :: A) ++ [x - A.getLastD c]
  | [], c, x => rfl
  | a :: A', c, x => by
    simp only [List.cons_append, List.zipWith_cons_cons, List.getLastD_cons]
    rw [zipWith_sub_append_last A' a x]

/-- The interior spacing loop under the `"linear"` metric on a sorted tail:
it returns the consecutive differences, whose sum telescopes from the
starting name to the last name. -/
theorem pairSpacings_linear : ∀ (l : List Node) (prev : Nat),
    List.Sorted (· ≤ ·) (prev :: l.map Node.name) → (∀ x ∈ l, x.name < 2^64) →
    prev < 2^64 →
    pairSpacings "linear" prev l =
      some (List.zipWith (fun b s => b - s) (l.map Node.name) (prev :: l.map Node.name)) ∧
    (List.zipWith (fun b s => b - s) (l.map Node.name) (prev :: l.map Node.name)).sum + prev =
      (l.map Node.name).getLastD prev ∧
    prev ≤ (l.map Node.name).getLastD prev
  | [], prev => by
    intro _ _ _
    exact ⟨rfl, by simp, Nat.le_refl prev⟩
  | n :: rest, prev => by
    intro hsort hmem hp
    have hpn : prev ≤ n.name := (List.sorted_cons.mp hsort).1 n.name (by simp)
    have hn : n.name < 2^64 := hmem n (by simp)
    have htail : List.Sorted (· ≤ ·) (n.name :: rest.map Node.name) := by
      have := (List.sorted_cons.mp hsort).2
      simpa using this
    have hmem' : ∀ x ∈ rest, x.name < 2^64 := fun x hx => hmem x (by simp [hx])
    obtain ⟨ih1, ih2, ih3⟩ := pairSpacings_linear rest n.name htail hmem' hn
    refine ⟨?_, ?_, ?_⟩
    · rw [pairSpacings, getSpacing_linear_of_le hpn hn, Option.some_bind, ih1, Option.some_bind]
      simp only [List.map_cons, List.zipWith_cons_cons]
    · simp only [List.map_cons, List.zipWith_cons_cons, List.sum_cons, List.getLastD_cons]
      omega
    · simp only [List.map_cons, List.getLastD_cons]
      omega

/-- The floor mean of a non-empty list of `uint64` values is a `uint64`. -/
theorem sum_div_length_lt (l : List Nat) (hne : l ≠ []) (h64 : ∀ x ∈ l, x < 2^64) :
    l.sum / l.length < 2^64 := by
  have hpos : 0 < l.length := List.length_pos.mpr hne
  have hsum : l.sum ≤ l.length * (2^64 - 1) := by
    have := List.sum_le_card_nsmul l (2^64 - 1) (fun x hx => by have := h64 x hx; omega)
    simpa [smul_eq_mul] using this
  have h3 : l.length * (2^64 - 1) + l.length = l.length * 2^64 := by
    rw [← Nat.mul_succ]
    norm_num
  have hcomm : 2^64 * l.length = l.length * 2^64 := Nat.mul_comm _ _
  exact (Nat.div_lt_iff_lt_mul hpos).mpr (by omega)

/-- On a non-empty list of `uint64` values `average` is the exact floor
mean (the final `Uint64` conversion never truncates). -/
theorem average_eq (l : List Nat) (hne : l ≠ []) (h64 : ∀ x ∈ l, x < 2^64) :
    average l = some (l.sum / l.length) := by
  unfold average
  rw [if_neg (by simpa using hne)]
  rw [show l.foldl (· + ·) 0 = l.sum from List.sum_eq_foldl.symm]
  rw [Nat.mod_eq_of_lt (sum_div_length_lt l hne h64)]

/-- Folding addition of `f` over a list starting from `i` is `i` plus the
sum of the mapped list. -/
theorem foldl_add_int (f : Nat → Int) : ∀ (l : List Nat) (i : Int),
    l.foldl (fun acc x => acc + f x) i = i + (l.map f).sum
  | [], i => by simp
  | x :: xs, i => by
    rw [List.foldl_cons, foldl_add_int f xs (i + f x)]
    simp [add_assoc]

/-- The bit-descending loop keeps the floor-square-root invariant. -/
theorem isqrtDown_bounds (n : Nat) : ∀ (k r : Nat), r * r ≤ n → n < (r + 2^k) * (r + 2^k) →
    isqrtDown n r k * isqrtDown n r k ≤ n ∧
      n < (isqrtDown n r k + 1) * (isqrtDown n r k + 1)
  | 0, r => fun h1 h2 => by
    rw [isqrtDown]
    exact ⟨h1, by simpa using h2⟩
  | k + 1, r => fun h1 h2 => by
    rw [isqrtDown]
    by_cases hc : (r + 2^k) * (r + 2^k) ≤ n
    · rw [if_pos hc]
      apply isqrtDown_bounds n k (r + 2^k) hc
      have he : r + 2^(k+1) = r + 2^k + 2^k := by
        rw [pow_succ]
        omega
      rwa [he] at h2
    · rw [if_neg hc]
      exact isqrtDown_bounds n k r h1 (by omega)

/-- `isqrt` agrees with the floor square root below `2^512`. -/
theorem isqrt_eq_sqrt {n : Nat} (h : n < 2^512) : isqrt n = Nat.sqrt n := by
  have hinit : n < (0 + 2^256) * (0 + 2^256) := by
    have he : (0 + 2^256) * (0 + 2^256) = 2^512 := by
      rw [Nat.zero_add, ← pow_add]
    omega
  obtain ⟨h1, h2⟩ := isqrtDown_bounds n 256 0 (by simp) hinit
  unfold isqrt
  apply Nat.le_antisymm
  · exact Nat.le_sqrt.mpr h1
  · have := Nat.sqrt_lt.mpr h2
    omega

/-- Each squared deviation of `uint64` values is at most `(2^64 - 1)^2`. -/
theorem sq_diff_le {x A : Nat} (hx : x < 2^64) (hA : A < 2^64) :
    ((x : Int) - (A : Int)) * ((x : Int) - (A : Int)) ≤ (2^64 - 1) * (2^64 - 1) := by
  have h1 : ((x : Int) - A) ≤ 2^64 - 1 := by
    have hxi : (x : Int) < 2^64 := by exact_mod_cast hx
    have hA0 : (0 : Int) ≤ A := Int.natCast_nonneg A
    omega
  have h2 : -(2^64 - 1) ≤ ((x : Int) - A) := by
    have hAi : (A : Int) < 2^64 := by exact_mod_cast hA
    have hx0 : (0 : Int) ≤ x := Int.natCast_nonneg x
    omega
  calc ((x : Int) - A) * ((x : Int) - A)
      = |(x : Int) - A| * |(x : Int) - A| := (abs_mul_abs_self _).symm
    _ ≤ (2^64 - 1) * (2^64 - 1) := by
        have habs : |(x : Int) - A| ≤ 2^64 - 1 := abs_le.mpr ⟨h2, h1⟩
        exact mul_le_mul habs habs (abs_nonneg _) (by norm_num)

/-- The sample variance of `uint64` values is far below `2^512`, so `isqrt`
computes its exact floor square root. -/
theorem variance_toNat_lt (l : List Nat) (A : Nat) (h2 : 2 ≤ l.length)
    (h64 : ∀ x ∈ l, x < 2^64) (hA : A < 2^64) :
    (((l.map fun x : Nat => ((x : Int) - (A : Int)) * ((x : Int) - (A : Int))).sum /
      ((l.length : Int) - 1)).toNat) < 2^512 := by
  have hd : (0 : Int) < (l.length : Int) - 1 := by
    have : (2 : Int) ≤ (l.length : Int) := by exact_mod_cast h2
    omega
  have hterm : ∀ y ∈ l.map fun x : Nat => ((x : Int) - (A : Int)) * ((x : Int) - (A : Int)),
      y ≤ ((2^64 - 1) * (2^64 - 1) : Int) := by
    intro y hy
    obtain ⟨x, hx, rfl⟩ := List.mem_map.mp hy
    exact sq_diff_le (h64 x hx) hA
  have hsum : (l.map fun x : Nat => ((x : Int) - (A : Int)) * ((x : Int) - (A : Int))).sum ≤
      (l.length : Int) * ((2^64 - 1) * (2^64 - 1)) := by
    have := List.sum_le_card_nsmul _ _ hterm
    simpa [smul_eq_mul, List.length_map] using this
  have hlen2 : (l.length : Int) ≤ 2 * ((l.length : Int) - 1) := by
    have : (2 : Int) ≤ (l.length : Int) := by exact_mod_cast h2
    omega
  have hC0 : (0 : Int) ≤ (2^64 - 1) * (2^64 - 1) := by norm_num
  have hstep : (l.length : Int) * ((2^64 - 1) * (2^64 - 1)) ≤
      ((l.length : Int) - 1) * (2 * ((2^64 - 1) * (2^64 - 1))) := by
    have := mul_le_mul_of_nonneg_right hlen2 hC0
    linarith
  have hQle : (l.map fun x : Nat => ((x : Int) - (A : Int)) * ((x : Int) - (A : Int))).sum /
      ((l.length : Int) - 1) ≤ 2 * ((2^64 - 1) * (2^64 - 1)) := by
    calc (l.map fun x : Nat => ((x : Int) - (A : Int)) * ((x : Int) - (A : Int))).sum /
        ((l.length : Int) - 1)
        ≤ ((l.length : Int) * ((2^64 - 1) * (2^64 - 1))) / ((l.length : Int) - 1) :=
          Int.ediv_le_ediv hd hsum
      _ ≤ (((l.length : Int) - 1) * (2 * ((2^64 - 1) * (2^64 - 1)))) / ((l.length : Int) - 1) :=
          Int.ediv_le_ediv hd hstep
      _ = 2 * ((2^64 - 1) * (2^64 - 1)) := Int.mul_ediv_cancel_left _ (by omega)
  have htn := Int.toNat_le_toNat hQle
  have hlit : ((2 * ((2^64 - 1) * (2^64 - 1)) : Int)).toNat = 2 * ((2^64 - 1) * (2^64 - 1)) := by
    decide
  have h129 : 2 * (((2:Nat)^64 - 1) * (2^64 - 1)) < 2^129 := by
    have hmul : ((2:Nat)^64 - 1) * (2^64 - 1) < 2^64 * 2^64 := by norm_num
    have hpow : (2:Nat) * (2^64 * 2^64) = 2^129 := by norm_num [← pow_add]
    omega
  have hp : (2:Nat)^129 ≤ 2^512 := Nat.pow_le_pow_right (by norm_num) (by norm_num)
  omega

/-- General form of C4's amended claim: when the deviation fits in `int64`,
`standardDeviation` returns exactly the specification's formula. -/
theorem sdev_eq_spec (l : List Nat) (h2 : 2 ≤ l.length) (h64 : ∀ x ∈ l, x < 2^64)
    (hfit : sdevSpec l < 2^63) :
    standardDeviation l = some ((sdevSpec l : Nat) : Int) := by
  have hne : l ≠ [] := by
    intro h
    rw [h] at h2
    exact absurd h2 (by decide)
  have havg := average_eq l hne h64
  have hAlt : l.sum / l.length < 2^64 := sum_div_length_lt l hne h64
  have hfold := foldl_add_int (fun x : Nat =>
    ((x : Int) - ((l.sum / l.length : Nat) : Int)) *
      ((x : Int) - ((l.sum / l.length : Nat) : Int))) l 0
  rw [zero_add] at hfold
  have hpow : (l.map fun x : Nat => ((x : Int) - ((l.sum / l.length : Nat) : Int))^2)
      = l.map fun x : Nat => ((x : Int) - ((l.sum / l.length : Nat) : Int)) *
          ((x : Int) - ((l.sum / l.length : Nat) : Int)) := by
    simp [pow_two]
  have hQspec : sdevSpec l = Nat.sqrt (((l.map fun x : Nat =>
      ((x : Int) - ((l.sum / l.length : Nat) : Int)) *
        ((x : Int) - ((l.sum / l.length : Nat) : Int))).sum
      / ((l.length : Int) - 1)).toNat) := by
    rw [sdevSpec, hpow]
  have hbound := variance_toNat_lt l (l.sum / l.length) h2 h64 hAlt
  simp only [standardDeviation, havg, Option.some_bind]
  rw [if_neg (by omega)]
  congr 1
  rw [hfold, isqrt_eq_sqrt hbound, ← hQspec, int64ofNat]
  rw [Nat.mod_eq_of_lt (Nat.lt_of_lt_of_le hfit (by norm_num))]
  rw [if_pos hfit]

/-! ## Claims -/

/-- C8: `average` computes the exact floor mean of any non-empty list of
`uint64` values, with no overflow (the `big.Int` accumulation is exact and
the result always fits `uint64`); the three regression fixtures hold. -/
theorem average_exact :
    (∀ l : List Nat, l ≠ [] → (∀ x ∈ l, x < 2^64) → average l = some (l.sum / l.length)) ∧
    average [5, 5, 5] = some 5 ∧
    average [1000, 3000, 7000] = some 3666 ∧
    average [2^64 - 1, 2^64 - 100, 2^64 - 10000] = some (2^64 - 1 - 3366) :=
  ⟨average_eq, by decide, by decide, by decide⟩

/-- Witness for C8 at a concrete list. -/
theorem average_exact_witness : average [2, 4] = some 3 :=
  average_exact.1 [2, 4] (by decide) (by decide)

/-- C4 (counterexample): on `{0, 2^64 - 1}` the true floor square root of
the sample variance is `13043817825332782211 ≥ 2^63`, which does not fit in
`int64`; the code's `Int64` conversion wraps it to a negative number, so
`standardDeviation` does not return the claimed floor square root. -/
theorem standardDeviation_int64_overflow :
    standardDeviation [0, 2^64 - 1] = some (-5402926248376769405) ∧
    standardDeviation [0, 2^64 - 1] ≠ some ((sdevSpec [0, 2^64 - 1] : Nat) : Int) := by
  have h1 : standardDeviation [0, 2^64 - 1] = some (-5402926248376769405) := by decide
  refine ⟨h1, ?_⟩
  rw [h1]
  intro hcontra
  have heq : (-5402926248376769405 : Int) = ((sdevSpec [0, 2^64 - 1] : Nat) : Int) :=
    Option.some.inj hcontra
  have hnn : (0 : Int) ≤ ((sdevSpec [0, 2^64 - 1] : Nat) : Int) := Int.natCast_nonneg _
  omega

/-- C4 (amended): for every list of at least two `uint64` values whose
sample standard deviation fits in `int64` (is below `2^63`),
`standardDeviation` returns exactly the floor of the integer square root of
the sum of squared differences from the floor average divided by
`count - 1`; the three fixtures hold, and fewer than two values fail
(division by zero). -/
theorem standardDeviation_exact :
    (∀ l : List Nat, 2 ≤ l.length → (∀ x ∈ l, x < 2^64) → sdevSpec l < 2^63 →
      standardDeviation l = some ((sdevSpec l : Nat) : Int)) ∧
    standardDeviation [5, 5, 5] = some 0 ∧
    standardDeviation [1000, 3000, 7000] = some 3055 ∧
    standardDeviation [2^64 - 1, 2^64 - 100, 2^64 - 10000] = some 5744 ∧
    standardDeviation [7] = none ∧
    standardDeviation [] = none :=
  ⟨sdev_eq_spec, by decide, by decide, by decide, by decide, by decide⟩

/-- Witness for C4's amended theorem on `{10, 20}` (variance 50, floor
square root 7). -/
theorem standardDeviation_exact_witness :
    standardDeviation [10, 20] = some 7 := by
  have h50 : ((([10, 20] : List Nat).map fun x : Nat =>
      ((x : Int) - ((([10, 20] : List Nat).sum / ([10, 20] : List Nat).length : Nat) : Int))^2).sum
      / ((([10, 20] : List Nat).length : Int) - 1)).toNat = 50 := by decide
  have hv : sdevSpec [10, 20] = Nat.sqrt 50 := congrArg Nat.sqrt h50
  have h7 : Nat.sqrt 50 = 7 := by
    have ha : 7 ≤ Nat.sqrt 50 := Nat.le_sqrt.mpr (by norm_num)
    have hb : Nat.sqrt 50 < 8 := Nat.sqrt_lt.mpr (by norm_num)
    omega
  have h := standardDeviation_exact.1 [10, 20] (by decide) (by decide)
    (by rw [hv, h7]; norm_num)
  rw [hv, h7] at h
  simpa using h

/-- C5: for a non-empty population sorted ascending by name, under the
`"linear"` metric `getAllSpacings` returns exactly the boundary gap from 0
to the first name, the consecutive pairwise gaps, and the boundary gap from
the last name to `2^64 - 1`, in that order (the zip of differences of the
name sequence against its own shift); that is `N + 1` values, and their
exact sum is `2^64 - 1` — the gaps tile the namespace. -/
theorem getAllSpacings_linear_tiles (nodes : List Node) (hne : nodes ≠ [])
    (hsort : List.Sorted (· ≤ ·) (nodes.map Node.name))
    (h64 : ∀ n ∈ nodes, n.name < 2^64) :
    getAllSpacings "linear" nodes =
      some (List.zipWith (fun b s => b - s)
        (nodes.map Node.name ++ [2^64 - 1]) (0 :: nodes.map Node.name)) ∧
    (List.zipWith (fun b s => b - s)
        (nodes.map Node.name ++ [2^64 - 1]) (0 :: nodes.map Node.name)).length =
      nodes.length + 1 ∧
    (List.zipWith (fun b s => b - s)
        (nodes.map Node.name ++ [2^64 - 1]) (0 :: nodes.map Node.name)).sum = 2^64 - 1 := by
  obtain ⟨n0, rest, rfl⟩ : ∃ n0 rest, nodes = n0 :: rest := by
    cases nodes with
    | nil => exact absurd rfl hne
    | cons a l => exact ⟨a, l, rfl⟩
  have h0 : n0.name < 2^64 := h64 n0 (by simp)
  have hsort' : List.Sorted (· ≤ ·) (n0.name :: rest.map Node.name) := by simpa using hsort
  have hmem' : ∀ x ∈ rest, x.name < 2^64 := fun x hx => h64 x (by simp [hx])
  obtain ⟨hp1, hp2, hp3⟩ := pairSpacings_linear rest n0.name hsort' hmem' h0
  have hlastlt : (rest.map Node.name).getLastD n0.name < 2^64 := by
    rcases List.eq_nil_or_concat (rest.map Node.name) with hnil | _
    · rw [hnil]; exact h0
    · by_cases hrn : rest.map Node.name = []
      · rw [hrn]; exact h0
      · exact (fun hm => by
          obtain ⟨x, hx, hxe⟩ := List.mem_map.mp hm
          exact hxe ▸ hmem' x hx) (getLastD_mem _ n0.name hrn)
  have hlastD : ((n0 :: rest).map Node.name).getLastD 0 = (rest.map Node.name).getLastD n0.name := by
    simp only [List.map_cons, List.getLastD_cons]
  have hfirst : getSpacing "linear" n0.name 0 = some (n0.name - 0) :=
    getSpacing_linear_of_le (Nat.zero_le _) h0
  have hlastSp : getSpacing "linear" (2^64 - 1) (((n0 :: rest).map Node.name).getLastD 0) =
      some (2^64 - 1 - (rest.map Node.name).getLastD n0.name) := by
    rw [hlastD]
    exact getSpacing_linear_of_le (by omega) (by omega)
  have hzip : List.zipWith (fun b s => b - s)
      ((n0 :: rest).map Node.name ++ [2^64 - 1]) (0 :: (n0 :: rest).map Node.name) =
      (n0.name - 0) ::
        (List.zipWith (fun b s => b - s) (rest.map Node.name) (n0.name :: rest.map Node.name) ++
          [2^64 - 1 - (rest.map Node.name).getLastD n0.name]) := by
    simp only [List.map_cons, List.cons_append, List.zipWith_cons_cons]
    rw [zipWith_sub_append_last]
  refine ⟨?_, ?_, ?_⟩
  · rw [getAllSpacings, hfirst, Option.some_bind, hp1, Option.some_bind, hlastSp,
      Option.some_bind, hzip]
  · rw [List.length_zipWith]
    simp
  · rw [hzip]
    simp only [List.sum_cons, List.sum_append, List.sum_cons, List.sum_nil]
    omega

/-- Witness for C5 at a concrete two-node sorted population. -/
theorem getAllSpacings_linear_tiles_witness :
    getAllSpacings "linear" [⟨10, 0, 0⟩, ⟨9223372036854775808, 0, 0⟩] =
      some [10, 9223372036854775798, 9223372036854775807] := by
  have h := getAllSpacings_linear_tiles [⟨10, 0, 0⟩, ⟨9223372036854775808, 0, 0⟩]
    (by decide) (by decide) (by decide)
  exact h.1.trans (by decide)

/-- C2 (amended): each chunk's load is attributed to the first `groupSize`
nodes of the population sorted by ascending XOR distance `Name ^ chunk` —
regardless of the configured spacing metric: there is an order `l` of the
(chunk-stamped) population in which exactly the first `g` nodes get the
increment, and every incremented node is XOR-closer-or-equal to the chunk
than every non-incremented node. -/
theorem placeChunk_attributes_xor_closest (g c : Nat) (nodes : List Node) :
    ∃ l : List Node, l.Perm (setChunk c nodes) ∧
      placeChunk g c nodes = (l.take g).map incrStored ++ l.drop g ∧
      ∀ a ∈ l.take g, ∀ b ∈ l.drop g, Nat.xor a.name c ≤ Nat.xor b.name c := by
  refine ⟨sortByXorDistance (setChunk c nodes), List.perm_insertionSort _ _, rfl, ?_⟩
  intro a ha b hb
  have hpw : List.Pairwise xorLe (sortByXorDistance (setChunk c nodes)) :=
    List.sorted_insertionSort xorLe _
  rw [← List.take_append_drop g (sortByXorDistance (setChunk c nodes))] at hpw
  have h3 := (List.pairwise_append.mp hpw).2.2 a ha b hb
  have hchunk : ∀ x ∈ sortByXorDistance (setChunk c nodes), x.currentChunk = c := by
    intro x hx
    have hx' : x ∈ setChunk c nodes := (List.perm_insertionSort xorLe _).subset hx
    simp only [setChunk, List.mem_map] at hx'
    obtain ⟨n, _, rfl⟩ := hx'
    rfl
  have hca : a.currentChunk = c := hchunk a (List.take_subset g _ ha)
  have hcb : b.currentChunk = c := hchunk b (List.drop_subset g _ hb)
  unfold xorLe xorKey at h3
  rw [hca, hcb] at h3
  exact h3

/-- Witness for C2's amended theorem at the counterexample's inputs. -/
theorem placeChunk_attributes_xor_closest_witness :
    ∃ l : List Node, l.Perm (setChunk 7 [⟨0, 0, 0⟩, ⟨8, 0, 0⟩]) ∧
      placeChunk 1 7 [⟨0, 0, 0⟩, ⟨8, 0, 0⟩] = (l.take 1).map incrStored ++ l.drop 1 ∧
      ∀ a ∈ l.take 1, ∀ b ∈ l.drop 1, Nat.xor a.name 7 ≤ Nat.xor b.name 7 :=
  placeChunk_attributes_xor_closest 1 7 [⟨0, 0, 0⟩, ⟨8, 0, 0⟩]

/-- C3: with `"chunks"` storage units and `groupSize ≤ population size`,
placing `totalStored` chunks on a fresh population makes the stored counts
sum to exactly `totalStored * groupSize`: every chunk increments exactly
`groupSize` nodes by one, with no partial attribution, double counting or
omission. -/
theorem placeChunks_load_conservation (g : Nat) (chunks : List Nat) (nodes : List Node)
    (h0 : ∀ n ∈ nodes, n.stored = 0) (hg : g ≤ nodes.length) :
    ((placeChunks g chunks nodes).map Node.stored).sum = chunks.length * g := by
  have hz : (nodes.map Node.stored).sum = 0 := by
    apply List.sum_eq_zero
    intro x hx
    obtain ⟨n, hn, rfl⟩ := List.mem_map.mp hx
    exact h0 n hn
  rw [placeChunks_sum g chunks nodes hg, hz, Nat.zero_add]

/-- Witness for C3 at a concrete one-node, one-chunk run. -/
theorem placeChunks_load_conservation_witness :
    ((placeChunks 1 [5] [⟨3, 0, 0⟩]).map Node.stored).sum = 1 :=
  placeChunks_load_conservation 1 [5] [⟨3, 0, 0⟩] (by decide) (by decide)

/-- C1 (code bug): the specification says `nameForBestFit` rejection-samples
until the candidate is strictly inside the narrowed widest gap.  On
`names = [100, 200]` the widest gap is `[200, 2^64-1]` and the narrowed
bounds are `(6148914691236517338, 12297829382473034477)`, yet with first
draw 0 the function returns 0, which is below the narrowed lower bound: the
loop condition `name <= minName && name >= maxName` uses `&&` where the
intent (per the source's own comment "find a new name within this spacing")
requires `||`, so the loop body can never run. -/
theorem nameForBestFit_escapes_narrowed_gap :
    nameForBestFit "linear" [100, 200] [0] = some 0 ∧
    bestFitBounds "linear" [100, 200] = some (6148914691236517338, 12297829382473034477) ∧
    ¬ (6148914691236517338 < 0 ∧ (0 : Nat) < 12297829382473034477) :=
  ⟨by decide, by decide, by decide⟩

/-- C6 (counterexample): the claim says `nameForQuietestHalf` returns a value
in the half with fewer identifiers, ties favouring the second half.  With
`names = [0, 1, 2]` (all in the first half) the computed bounds do select
the second half, yet the first draw 0 — in the crowded first half — is
returned unchanged.  And on a tie (`names = [0, 2^63]`) the computed bounds
select the *first* half `[0, halfway]`, not the second. -/
theorem nameForQuietestHalf_escapes_quiet_half :
    nameForQuietestHalf [0, 1, 2] [0] = some 0 ∧
    quietBounds [0, 1, 2] = (halfway, 2^64 - 1) ∧
    (0 : Nat) < halfway ∧
    quietBounds [0, 2^63] = (0, halfway) :=
  ⟨by decide, by decide, by decide, by decide⟩

/-- C6 (amended): `nameForQuietestHalf` computes bounds restricting to the
half with fewer identifiers (ties selecting the first half `[0, halfway]`),
but its resampling loop condition is unsatisfiable, so it returns the first
drawn 64-bit value whether or not that value lies in the selected half. -/
theorem nameForQuietestHalf_returns_first_draw :
    (∀ names rands : List Nat, nameForQuietestHalf names rands = rands.head?) ∧
    quietBounds [0, 2^63] = (0, halfway) :=
  ⟨quietestHalf_eq_head, by decide⟩

/-- Witness for C6's amended theorem at a concrete input. -/
theorem nameForQuietestHalf_returns_first_draw_witness :
    nameForQuietestHalf [1, 2, 3] [9] = some 9 :=
  nameForQuietestHalf_returns_first_draw.1 [1, 2, 3] [9]

/-- C10: under the `"linear"` spacing metric the resampling loop condition
`name ≤ minName ∧ name ≥ maxName` is unsatisfiable (the computed bounds
always satisfy `minName < maxName`), so both `nameForBestFit` and
`nameForQuietestHalf` return the first uniformly drawn 64-bit value
unchanged — behaviourally identical to the `"random"` strategy, which
returns `rand.Uint64()`, the head of the stream. -/
theorem resampling_loop_never_runs :
    (∀ names rands : List Nat, (∀ x ∈ names, x < 2^64) →
      nameForBestFit "linear" names rands = rands.head?) ∧
    (∀ names rands : List Nat, nameForQuietestHalf names rands = rands.head?) :=
  ⟨fun names rands h64 => bestFit_linear_eq_head names rands h64, quietestHalf_eq_head⟩

/-- Witness for C10 at concrete inputs. -/
theorem resampling_loop_never_runs_witness :
    nameForBestFit "linear" [5] [7, 8] = some 7 ∧
    nameForQuietestHalf [5] [7, 8] = some 7 :=
  ⟨resampling_loop_never_runs.1 [5] [7, 8] (by decide),
   resampling_loop_never_runs.2 [5] [7, 8]⟩

/-- C7: on the 14-identifier fixture, whenever `nameForEmptySubsection`
returns, its result lies in `[0x4000000000000000, 0x4FFFFFFFFFFFFFFF]` or in
`[0xB000000000000000, 0xBFFFFFFFFFFFFFFF]` — the two subsections found empty
at search depth 4. -/
theorem nameForEmptySubsection_fixture (rands : List Nat) (v : Nat)
    (h : nameForEmptySubsection fixtureNames rands = some v) :
    (0x4000000000000000 ≤ v ∧ v ≤ 0x4FFFFFFFFFFFFFFF) ∨
    (0xB000000000000000 ≤ v ∧ v ≤ 0xBFFFFFFFFFFFFFFF) := by
  have hs : findEmptySubsections fixtureNames 0 64 =
      some [(0x4000000000000000, 0x4FFFFFFFFFFFFFFF),
            (0xB000000000000000, 0xBFFFFFFFFFFFFFFF)] := by decide
  unfold nameForEmptySubsection at h
  rw [hs] at h
  have := pickName_inAny _ _ _ h
  simpa using this

/-- Witness for C7 at a concrete draw inside the first empty subsection. -/
theorem nameForEmptySubsection_fixture_witness :
    nameForEmptySubsection fixtureNames [0x4000000000000001] = some 0x4000000000000001 ∧
    ((0x4000000000000000 ≤ 0x4000000000000001 ∧
        (0x4000000000000001 : Nat) ≤ 0x4FFFFFFFFFFFFFFF) ∨
     (0xB000000000000000 ≤ 0x4000000000000001 ∧
        (0x4000000000000001 : Nat) ≤ 0xBFFFFFFFFFFFFFFF)) :=
  ⟨by decide, nameForEmptySubsection_fixture [0x4000000000000001] 0x4000000000000001 (by decide)⟩

/-- C9 (counterexample): the claim's formula `floor(2^64 * current / target)`
does not match the source's `float64` computation: at `current = 1`,
`target = 100` the code yields 184467440737095520 (since `1/100` rounds up
to the nearest binary64), while the exact formula yields 184467440737095516. -/
theorem uniformName_not_exact_formula :
    uniformName 1 100 = 184467440737095520 ∧
    2^64 * 1 / 100 = 184467440737095516 :=
  ⟨by decide, by decide⟩

/-- C9 (amended): the uniform identifier is `floor(2^64 * fl(current/target))`
with `fl` the binary64 rounding of the ratio; when the ratio is exactly
representable the claim's formula holds, and in particular with
`totalNodes = 4` the four bootstrap identifiers are exactly 0, `2^62`,
`2^63` and `3 * 2^62`, agreeing with `floor(2^64 * current / 4)`. -/
theorem uniformName_bootstrap_four :
    uniformName 0 4 = 0 ∧
    uniformName 1 4 = 2^62 ∧ uniformName 1 4 = 2^64 * 1 / 4 ∧
    uniformName 2 4 = 2^63 ∧ uniformName 2 4 = 2^64 * 2 / 4 ∧
    uniformName 3 4 = 3 * 2^62 ∧ uniformName 3 4 = 2^64 * 3 / 4 :=
  ⟨by decide, by decide, by decide, by decide, by decide, by decide, by decide⟩

/-- C2 (counterexample): with the shipped `"linear"` spacing metric the
claim predicts chunk 7 is attributed to the linearly closest node (name 8,
distance 1, against name 0 at distance 7); but the placement sort is
unconditionally XOR-based (`0 ^ 7 = 7 < 15 = 8 ^ 7`), so the chunk goes to
node 0. -/
theorem placeChunk_ignores_linear_metric :
    (sortByXorDistance (setChunk 7 [⟨0, 0, 0⟩, ⟨8, 0, 0⟩])).map Node.name = [0, 8] ∧
    linDiff 8 7 < linDiff 0 7 ∧
    (placeChunk 1 7 [⟨0, 0, 0⟩, ⟨8, 0, 0⟩]).map (fun n => (n.name, n.stored)) = [(0, 1), (8, 0)] :=
  ⟨by decide, by decide, by decide⟩

end SafeChunkSim
